import Mathlib

/-
Verification of the synapse-docs server (src/src/index.ts) against its
natural-language specification.

The development shallowly embeds the three in-house subsystems of the
source file and the orchestrating service:

t SimpleDatabase (src/src/index.ts, lines 188-259): named tables, each a
  JavaScript Map from a generated identifier to a record object.
t SimpleTemplateEngine (lines 154-185): three regex substitution passes.
t SimpleServer (lines 61-151): method-and-exact-path route table plus a
  middleware chain driven by an explicit continuation.
t DocumentationService (lines 319-1068): route registration (setupRoutes)
  and content seeding (setupDatabase).

Modelling conventions, stated once here and referenced below:
t JavaScript objects and Maps are embedded as association lists; property
  assignment and Map.set replace an existing key in place (keeping its
  position) and append a fresh key, exactly as JavaScript preserves
  insertion order.
t randomUUID is modelled as a counter-backed fresh-identifier supply; the
  identifier strings it returns are represented by the constructor Val.vId
  applied to the counter value.
t new Date() is modelled as reading a logical clock stored in the database
  state; the clock advances by one at each date-constructing store
  operation, and the several new Date() calls inside one synchronous
  operation (insert) observe the same instant.
-/

namespace SynapseDocs

/-! ## Association lists with JavaScript Map and object semantics -/

/-- Lookup in an association list, first match wins (JavaScript Map.get /
property read; keys are unique in every list we build). -/
def lookupA {κ : Type} [DecidableEq κ] {β : Type} : List (κ × β) → κ → Option β
  | [], _ => none
  | (k, v) :: rest, key => if k = key then some v else lookupA rest key

/-- JavaScript Map.set and object property assignment: overwrite in place
when the key is present (keeping its position), append otherwise. -/
def setA {κ : Type} [DecidableEq κ] {β : Type} : List (κ × β) → κ → β → List (κ × β)
  | [], key, v => [(key, v)]
  | (k, w) :: rest, key, v =>
      if k = key then (k, v) :: rest else (k, w) :: setA rest key v

/-- JavaScript Map.delete: remove the entry with the given key, if any. -/
def eraseA {κ : Type} [DecidableEq κ] {β : Type} : List (κ × β) → κ → List (κ × β)
  | [], _ => []
  | (k, w) :: rest, key => if k = key then rest else (k, w) :: eraseA rest key

/-! ## JavaScript runtime values

Record fields are dynamically typed in the source, so we embed the
JavaScript values that actually flow through it.  Identifier strings
produced by randomUUID are represented by vId (applied to the counter of
the modelled supply), Date objects by vDate (applied to the logical
instant of their construction). -/

inductive Val : Type where
  | vStr : String → Val
  | vNum : Int → Val
  | vBool : Bool → Val
  | vNaN : Val
  | vDate : Nat → Val
  | vId : Nat → Val
  | vList : List Val → Val
  | vObj : List (String × Val) → Val

/-- A record / plain object: an insertion-ordered association list of
fields. -/
abbrev Rec : Type := List (String × Val)

/-- JavaScript strict equality as used by SimpleDatabase.find conditions
(record[key] === value).  Primitives compare by value; NaN is not equal to
anything including itself; Date objects, arrays and plain objects compare
by reference, and a condition value is always a freshly constructed
operand, never the stored reference, so those comparisons are false. -/
def jsEq : Val → Val → Bool
  | .vStr a, .vStr b => a == b
  | .vNum a, .vNum b => a == b
  | .vBool a, .vBool b => a == b
  | .vId a, .vId b => a == b
  | _, _ => false

/-- JavaScript truthiness. -/
def truthy : Val → Bool
  | .vStr s => !(s == "")
  | .vNum n => !(n == 0)
  | .vBool b => b
  | .vNaN => false
  | .vDate _ => true
  | .vId _ => true
  | .vList _ => true
  | .vObj _ => true

/-- JavaScript String() on non-array values.  The human-readable text of
Date objects and the uuid string syntax are abstracted (no claim inspects
them); a plain object stringifies to the usual constant. -/
def jsToStringBase : Val → String
  | .vStr s => s
  | .vNum n => toString n
  | .vBool b => if b then "true" else "false"
  | .vNaN => "NaN"
  | .vDate t => "[Date " ++ toString t ++ "]"
  | .vId n => "uuid-" ++ toString n
  | .vList _ => "[Array]"
  | .vObj _ => "[object Object]"

/-- JavaScript String(): an array stringifies its elements joined by
commas (one level; no seeded value or claim nests arrays in arrays). -/
def jsToString : Val → String
  | .vList l => String.intercalate "," (l.map jsToStringBase)
  | v => jsToStringBase v

/-- The idiom (x || two-quotes) applied by the template engine to every
substituted value: the string form of a truthy value, the empty string
for an absent or falsy one. -/
def jsOrEmpty : Option Val → String
  | some v => if truthy v then jsToString v else ""
  | none => ""

/-! ## SimpleDatabase (src/src/index.ts lines 188-259) -/

/-- The state of a SimpleDatabase: the private field data (a Map from
table name to a Map from identifier to record), plus the modelled
identifier supply and logical clock (see the conventions at the top). -/
structure Db : Type where
  tables : List (String × List (Nat × Rec))
  nextId : Nat
  clock : Nat

/-- The freshly constructed SimpleDatabase: no tables, pristine
identifier supply and clock. -/
def emptyDb : Db := { tables := [], nextId := 0, clock := 0 }

namespace SimpleDatabase

/-- createTable (line 195): this.data.set(tableName, new Map()). -/
def createTable (db : Db) (tableName : String) : Db :=
  { db with tables := setA db.tables tableName [] }

/-- Spread-merge of update fields into a record, later keys overriding
(the object spread in insert and update). -/
def mergeRec (r : Rec) (u : Rec) : Rec :=
  u.foldl (fun acc kv => setA acc kv.1 kv.2) r

/-- insert (lines 199-208): auto-create the table when absent, generate a
fresh identifier, attach id / createdAt / updatedAt, store, return the
stored record.  Both new Date() calls happen at the same modelled
instant. -/
def insert (db : Db) (tableName : String) (record : Rec) : Rec × Db :=
  let db0 :=
    match lookupA db.tables tableName with
    | some _ => db
    | none => createTable db tableName
  let time := db0.clock + 1
  let n := db0.nextId
  let recordWithId :=
    setA (setA (setA record "id" (.vId n)) "createdAt" (.vDate time)) "updatedAt" (.vDate time)
  let tbl := (lookupA db0.tables tableName).getD []
  (recordWithId,
    { tables := setA db0.tables tableName (setA tbl n recordWithId)
      nextId := n + 1
      clock := time })

/-- Condition check of find (lines 221-225): every condition field must be
strictly equal to the record field. -/
def matchesConditions (conditions : Rec) (r : Rec) : Bool :=
  conditions.all fun kv =>
    match lookupA r kv.1 with
    | some w => jsEq w kv.2
    | none => false

/-- find (lines 210-226): all records of the table in insertion order,
filtered by the optional exact-match conditions; empty for a missing
table. -/
def find (db : Db) (tableName : String) (conditions : Option Rec) : List Rec :=
  match lookupA db.tables tableName with
  | none => []
  | some tbl =>
      let records := tbl.map Prod.snd
      match conditions with
      | none => records
      | some c => records.filter (matchesConditions c)

/-- findById (lines 228-234): the record, or none for a missing table or
identifier (the null of the source). -/
def findById (db : Db) (tableName : String) (id : Nat) : Option Rec :=
  match lookupA db.tables tableName with
  | none => none
  | some tbl => lookupA tbl id

/-- update (lines 236-250): false on a missing table or record, otherwise
spread-merge the updates, refresh updatedAt with a new Date(), store under
the same key and return true. -/
def update (db : Db) (tableName : String) (id : Nat) (updates : Rec) : Bool × Db :=
  match lookupA db.tables tableName with
  | none => (false, db)
  | some tbl =>
      match lookupA tbl id with
      | none => (false, db)
      | some record =>
          let time := db.clock + 1
          let updatedRecord := setA (mergeRec record updates) "updatedAt" (.vDate time)
          (true,
            { db with
                tables := setA db.tables tableName (setA tbl id updatedRecord)
                clock := time })

/-- delete (lines 252-258): remove the record, reporting whether it
existed; false on a missing table. -/
def delete (db : Db) (tableName : String) (id : Nat) : Bool × Db :=
  match lookupA db.tables tableName with
  | none => (false, db)
  | some tbl =>
      match lookupA tbl id with
      | none => (false, db)
      | some _ =>
          (true, { db with tables := setA db.tables tableName (eraseA tbl id) })

end SimpleDatabase

/-! ## Operation sequences over the store

Used to state process-lifetime properties (identifier uniqueness across
every insertion ever performed). -/

/-- A store-mutating call to SimpleDatabase. -/
inductive DbOp : Type where
  | createTable (tableName : String)
  | insert (tableName : String) (record : Rec)
  | update (tableName : String) (id : Nat) (updates : Rec)
  | delete (tableName : String) (id : Nat)

/-- The state after one SimpleDatabase call (return value dropped). -/
def applyOp (db : Db) : DbOp → Db
  | .createTable n => SimpleDatabase.createTable db n
  | .insert t r => (SimpleDatabase.insert db t r).2
  | .update t id u => (SimpleDatabase.update db t id u).2
  | .delete t id => (SimpleDatabase.delete db t id).2

/-- The identifier field of a returned record. -/
def retIdOf (r : Rec) : Nat :=
  match lookupA r "id" with
  | some (.vId n) => n
  | _ => 0

/-- The identifiers of the records returned by the insert calls of an
operation sequence, in call order. -/
def insertIds : Db → List DbOp → List Nat
  | _, [] => []
  | db, op :: ops =>
      match op with
      | .insert t r => retIdOf (SimpleDatabase.insert db t r).1 :: insertIds (applyOp db op) ops
      | _ => insertIds (applyOp db op) ops

/-- One stored record is well formed at clock c. -/
def wfRecB (c : Nat) (r : Rec) : Bool :=
  match lookupA r "updatedAt" with
  | some (.vDate t) => decide (t ≤ c)
  | _ => false

/-- Executable well-formedness of a store state. -/
def WfDb (db : Db) : Bool :=
  db.tables.all fun p => p.2.all fun q => decide (q.1 < db.nextId) && wfRecB db.clock q.2

/-- A store holding one freshly inserted record in table t (used by
witnesses and counterexamples below). -/
def oneRecDb : Db := (SimpleDatabase.insert emptyDb "t" []).2

/-- A store with one created, empty table t. -/
def oneTableDb : Db := SimpleDatabase.createTable emptyDb "t"

/-- A two-table store for the C10 witness. -/
def twoTableDb : Db :=
  (SimpleDatabase.insert (SimpleDatabase.createTable emptyDb "u") "t" [("name", .vStr "a")]).2

/-- The regex class backslash-w (ASCII word characters). -/
def isWordChar (c : Char) : Bool := c.isAlpha || c.isDigit || c == '_'

/-- The regex class backslash-s (whitespace; the ASCII part suffices for
every template in the repository). -/
def isSpaceChar (c : Char) : Bool :=
  c == ' ' || c == '\t' || c == '\n' || c == '\r' || c == '\x0b' || c == '\x0c'

/-- Greedy word-plus: the maximal leading run of word characters and the
remainder. -/
def takeWord : List Char → List Char × List Char
  | [] => ([], [])
  | c :: cs =>
      if isWordChar c then ((c :: (takeWord cs).1), (takeWord cs).2) else ([], c :: cs)

/-- Greedy whitespace-star. -/
def dropSpaces : List Char → List Char
  | [] => []
  | c :: cs => if isSpaceChar c then dropSpaces cs else c :: cs

/-- Whitespace-plus: at least one space character, then greedy. -/
def takeSpaces1 : List Char → Option (List Char)
  | [] => none
  | c :: cs => if isSpaceChar c then some (dropSpaces cs) else none

/-- A literal piece of a regex: consume it or fail. -/
def matchLit : List Char → List Char → Option (List Char)
  | [], l => some l
  | _ :: _, [] => none
  | c :: cs, d :: ds => if c = d then matchLit cs ds else none

theorem takeWord_snd_length (l : List Char) : (takeWord l).2.length ≤ l.length := by
  induction l with
  | nil => simp [takeWord]
  | cons c cs ih =>
      by_cases h : isWordChar c <;> simp [takeWord, h]
      omega

theorem dropSpaces_length (l : List Char) : (dropSpaces l).length ≤ l.length := by
  induction l with
  | nil => simp [dropSpaces]
  | cons c cs ih =>
      by_cases h : isSpaceChar c <;> simp [dropSpaces, h]
      omega

theorem takeSpaces1_length {l r : List Char} (h : takeSpaces1 l = some r) :
    r.length < l.length := by
  cases l with
  | nil => exact absurd h (by simp [takeSpaces1])
  | cons c cs =>
      rw [takeSpaces1] at h
      by_cases hs : isSpaceChar c
      · rw [if_pos hs] at h
        cases h
        have := dropSpaces_length cs
        simp
        omega
      · rw [if_neg hs] at h
        exact absurd h (by simp)

theorem matchLit_length : ∀ {lit l r : List Char}, matchLit lit l = some r →
    r.length ≤ l.length := by
  intro lit
  induction lit with
  | nil => intro l r h; rw [matchLit] at h; cases h; exact Nat.le_refl _
  | cons c cs ih =>
      intro l r h
      cases l with
      | nil => exact absurd h (by simp [matchLit])
      | cons d ds =>
          rw [matchLit] at h
          by_cases he : c = d
          · rw [if_pos he] at h
            have := ih h
            simp
            omega
          · rw [if_neg he] at h
            exact absurd h (by simp)

/-- The if tag of the conditional-block regex. -/
def parseIfTag (l : List Char) : Option (String × List Char) :=
  match matchLit ['{', '%'] l with
  | none => none
  | some l1 =>
      match matchLit ['i', 'f'] (dropSpaces l1) with
      | none => none
      | some l2 =>
          match takeSpaces1 l2 with
          | none => none
          | some l3 =>
              if (takeWord l3).1.isEmpty then none
              else
                match matchLit ['%', '}'] (dropSpaces (takeWord l3).2) with
                | none => none
                | some l4 => some (String.mk (takeWord l3).1, l4)

/-- The closing tag of a block regex: open brace-percent, spaces, the
given keyword, spaces, percent-close brace. -/
def parseEndTag (word : List Char) (l : List Char) : Option (List Char) :=
  match matchLit ['{', '%'] l with
  | none => none
  | some l1 =>
      match matchLit word (dropSpaces l1) with
      | none => none
      | some l2 => matchLit ['%', '}'] (dropSpaces l2)

/-- The for tag of the loop-block regex: item variable and array
variable. -/
def parseForTag (l : List Char) : Option (String × String × List Char) :=
  match matchLit ['{', '%'] l with
  | none => none
  | some l1 =>
      match matchLit ['f', 'o', 'r'] (dropSpaces l1) with
      | none => none
      | some l2 =>
          match takeSpaces1 l2 with
          | none => none
          | some l3 =>
              if (takeWord l3).1.isEmpty then none
              else
                match takeSpaces1 (takeWord l3).2 with
                | none => none
                | some l4 =>
                    match matchLit ['i', 'n'] l4 with
                    | none => none
                    | some l5 =>
                        match takeSpaces1 l5 with
                        | none => none
                        | some l6 =>
                            if (takeWord l6).1.isEmpty then none
                            else
                              match matchLit ['%', '}'] (dropSpaces (takeWord l6).2) with
                              | none => none
                              | some l7 =>
                                  some (String.mk (takeWord l3).1,
                                    String.mk (takeWord l6).1, l7)

/-- The lazy body regex piece: scan forward to the first position where
the closing tag matches, returning the body before it and the remainder
after it. -/
def findEnd (word : List Char) : List Char → Option (List Char × List Char)
  | [] =>
      match parseEndTag word [] with
      | some r => some ([], r)
      | none => none
  | c :: cs =>
      match parseEndTag word (c :: cs) with
      | some r => some ([], r)
      | none =>
          match findEnd word cs with
          | some (b, r) => some (c :: b, r)
          | none => none

theorem parseIfTag_length {l : List Char} {n : String} {rest : List Char}
    (h : parseIfTag l = some (n, rest)) : rest.length < l.length := by
  unfold parseIfTag at h
  cases h1 : matchLit ['{', '%'] l with
  | none => simp only [h1] at h; exact absurd h (by simp)
  | some l1 =>
      simp only [h1] at h
      cases h2 : matchLit ['i', 'f'] (dropSpaces l1) with
      | none => simp only [h2] at h; exact absurd h (by simp)
      | some l2 =>
          simp only [h2] at h
          cases h3 : takeSpaces1 l2 with
          | none => simp only [h3] at h; exact absurd h (by simp)
          | some l3 =>
              simp only [h3] at h
              by_cases h4 : (takeWord l3).1.isEmpty
              · rw [if_pos h4] at h; exact absurd h (by simp)
              · rw [if_neg h4] at h
                cases h5 : matchLit ['%', '}'] (dropSpaces (takeWord l3).2) with
                | none => simp only [h5] at h; exact absurd h (by simp)
                | some l4 =>
                    simp only [h5] at h
                    cases h
                    have e1 := matchLit_length h1
                    have e2 := dropSpaces_length l1
                    have e3 := matchLit_length h2
                    have e4 := takeSpaces1_length h3
                    have e5 := takeWord_snd_length l3
                    have e6 := dropSpaces_length (takeWord l3).2
                    have e7 := matchLit_length h5
                    omega

theorem parseForTag_length {l : List Char} {iv av : String} {rest : List Char}
    (h : parseForTag l = some (iv, av, rest)) : rest.length < l.length := by
  unfold parseForTag at h
  cases h1 : matchLit ['{', '%'] l with
  | none => simp only [h1] at h; exact absurd h (by simp)
  | some l1 =>
      simp only [h1] at h
      cases h2 : matchLit ['f', 'o', 'r'] (dropSpaces l1) with
      | none => simp only [h2] at h; exact absurd h (by simp)
      | some l2 =>
          simp only [h2] at h
          cases h3 : takeSpaces1 l2 with
          | none => simp only [h3] at h; exact absurd h (by simp)
          | some l3 =>
              simp only [h3] at h
              by_cases h4 : (takeWord l3).1.isEmpty
              · rw [if_pos h4] at h; exact absurd h (by simp)
              · rw [if_neg h4] at h
                cases h5 : takeSpaces1 (takeWord l3).2 with
                | none => simp only [h5] at h; exact absurd h (by simp)
                | some l4 =>
                    simp only [h5] at h
                    cases h6 : matchLit ['i', 'n'] l4 with
                    | none => simp only [h6] at h; exact absurd h (by simp)
                    | some l5 =>
                        simp only [h6] at h
                        cases h7 : takeSpaces1 l5 with
                        | none => simp only [h7] at h; exact absurd h (by simp)
                        | some l6 =>
                            simp only [h7] at h
                            by_cases h8 : (takeWord l6).1.isEmpty
                            · rw [if_pos h8] at h; exact absurd h (by simp)
                            · rw [if_neg h8] at h
                              cases h9 : matchLit ['%', '}'] (dropSpaces (takeWord l6).2) with
                              | none => simp only [h9] at h; exact absurd h (by simp)
                              | some l7 =>
                                  simp only [h9] at h
                                  cases h
                                  have e1 := matchLit_length h1
                                  have e2 := dropSpaces_length l1
                                  have e3 := matchLit_length h2
                                  have e4 := takeSpaces1_length h3
                                  have e5 := takeWord_snd_length l3
                                  have e6 := takeSpaces1_length h5
                                  have e7 := matchLit_length h6
                                  have e8 := takeSpaces1_length h7
                                  have e9 := takeWord_snd_length l6
                                  have e10 := dropSpaces_length (takeWord l6).2
                                  have e11 := matchLit_length h9
                                  omega

theorem parseEndTag_length {word l r : List Char} (h : parseEndTag word l = some r) :
    r.length ≤ l.length := by
  unfold parseEndTag at h
  cases h1 : matchLit ['{', '%'] l with
  | none => simp only [h1] at h; exact absurd h (by simp)
  | some l1 =>
      simp only [h1] at h
      cases h2 : matchLit word (dropSpaces l1) with
      | none => simp only [h2] at h; exact absurd h (by simp)
      | some l2 =>
          simp only [h2] at h
          have e1 := matchLit_length h1
          have e2 := dropSpaces_length l1
          have e3 := matchLit_length h2
          have e4 := dropSpaces_length l2
          have e5 := matchLit_length h
          omega

theorem findEnd_length : ∀ {word l b r : List Char}, findEnd word l = some (b, r) →
    r.length ≤ l.length := by
  intro word l
  induction l with
  | nil =>
      intro b r h
      unfold findEnd at h
      cases h1 : parseEndTag word [] with
      | none => simp only [h1] at h; exact absurd h (by simp)
      | some r1 =>
          rw [h1] at h
          cases h
          exact parseEndTag_length h1
  | cons c cs ih =>
      intro b r h
      unfold findEnd at h
      cases h1 : parseEndTag word (c :: cs) with
      | some r1 =>
          rw [h1] at h
          cases h
          exact parseEndTag_length h1
      | none =>
          rw [h1] at h
          cases h2 : findEnd word cs with
          | none => simp only [h2] at h; exact absurd h (by simp)
          | some p =>
              obtain ⟨b1, r1⟩ := p
              rw [h2] at h
              cases h
              have := ih h2
              simp
              omega

/-- Truthiness of a context entry (the if condition test). -/
def truthyLookup (ctx : List (String × Val)) (name : String) : Bool :=
  match lookupA ctx name with
  | some v => truthy v
  | none => false

/-- Pass 1 (lines 159-161): global replacement of brace-brace word
brace-brace tokens by the substituted value; on a failed match the
scanner advances one character, exactly like the regex engine. -/
def substVars (ctx : List (String × Val)) : List Char → List Char
  | [] => []
  | '{' :: '{' :: rest =>
      if (takeWord rest).1.isEmpty then '{' :: substVars ctx ('{' :: rest)
      else
        match hm : (takeWord rest).2 with
        | '}' :: '}' :: rest2 =>
            (jsOrEmpty (lookupA ctx (String.mk (takeWord rest).1))).data
              ++ substVars ctx rest2
        | _ => '{' :: substVars ctx ('{' :: rest)
  | c :: cs => c :: substVars ctx cs
  termination_by l => l.length
  decreasing_by
    all_goals
      solve
      | (simp; omega)
      | simp
      | (have h9 := takeWord_snd_length rest
         rw [hm] at h9
         simp at h9 ⊢
         omega)

/-- Pass 2 (lines 164-169): every if block (lazy body up to the first
endif tag) is replaced by its body when the condition entry is truthy,
and removed entirely otherwise. -/
def condPass (ctx : List (String × Val)) : List Char → List Char
  | [] => []
  | c :: cs =>
      match hp : parseIfTag (c :: cs) with
      | some (name, afterTag) =>
          match hf : findEnd ['e', 'n', 'd', 'i', 'f'] afterTag with
          | some (body, rest) =>
              (if truthyLookup ctx name then body else []) ++ condPass ctx rest
          | none => c :: condPass ctx cs
      | none => c :: condPass ctx cs
  termination_by l => l.length
  decreasing_by
    all_goals
      solve
      | (simp; omega)
      | simp
      | (have e1 := parseIfTag_length hp
         have e2 := findEnd_length hf
         simp at e1 ⊢
         omega)

/-- data[arrayVar] || [] of the loop pass.  A truthy non-array value
would make the source throw a TypeError at .map; no seeded context and no
claim supplies one, and that unreachable error path is collapsed to the
empty iteration here. -/
def jsArr : Option Val → List Val
  | some (.vList l) => l
  | _ => []

/-- Property read on a loop item (item[prop] in line 177); built-in
properties of primitive values are not modelled (no template in the
repository reads one). -/
def itemGet : Val → String → Option Val
  | .vObj fields, prop => lookupA fields prop
  | _, _ => none

/-- Per-iteration body substitution (lines 175-178): replace every
brace-brace itemVar dot word brace-brace token by the item field. -/
def substItem (itemVar : List Char) (item : Val) : List Char → List Char
  | [] => []
  | '{' :: '{' :: rest =>
      match hm : matchLit itemVar rest with
      | some ('.' :: rest2) =>
          if (takeWord rest2).1.isEmpty then '{' :: substItem itemVar item ('{' :: rest)
          else
            match hm2 : (takeWord rest2).2 with
            | '}' :: '}' :: rest3 =>
                (jsOrEmpty (itemGet item (String.mk (takeWord rest2).1))).data
                  ++ substItem itemVar item rest3
            | _ => '{' :: substItem itemVar item ('{' :: rest)
      | _ => '{' :: substItem itemVar item ('{' :: rest)
  | c :: cs => c :: substItem itemVar item cs
  termination_by l => l.length
  decreasing_by
    all_goals
      solve
      | (simp; omega)
      | simp
      | (have e1 := matchLit_length hm
         have e2 := takeWord_snd_length rest2
         rw [hm2] at e2
         simp at e1 e2 ⊢
         omega)

/-- Pass 3 (lines 172-181): every for block (lazy body up to the first
endfor tag) is evaluated once per element of the context array (empty
when absent or falsy), the body substituted per item, the iteration
results concatenated in order. -/
def loopPass (ctx : List (String × Val)) : List Char → List Char
  | [] => []
  | c :: cs =>
      match hp : parseForTag (c :: cs) with
      | some (itemVar, arrayVar, afterTag) =>
          match hf : findEnd ['e', 'n', 'd', 'f', 'o', 'r'] afterTag with
          | some (body, rest) =>
              ((jsArr (lookupA ctx arrayVar)).map
                (fun item => substItem itemVar.data item body)).flatten
                ++ loopPass ctx rest
          | none => c :: loopPass ctx cs
      | none => c :: loopPass ctx cs
  termination_by l => l.length
  decreasing_by
    all_goals
      solve
      | (simp; omega)
      | simp
      | (have e1 := parseForTag_length hp
         have e2 := findEnd_length hf
         simp at e1 ⊢
         omega)

namespace SimpleTemplateEngine

/-- render (lines 155-184): the three passes in order over the whole
template. -/
def render (template : String) (data : List (String × Val)) : String :=
  String.mk (loopPass data (condPass data (substVars data template.data)))

end SimpleTemplateEngine

/-! ## SimpleServer (src/src/index.ts lines 61-151) -/

/-- The handlers the documentation service registers in setupRoutes
(lines 466-542), as route-table values. -/
inductive HandlerId : Type where
  | home
  | slugPage
  | examplesPage
  | apiPage
  | searchApi
deriving DecidableEq

/-- The private routes field: a Map from method to a Map from exact path
string to handler. -/
abbrev Routes : Type := List (String × List (String × HandlerId))

/-- The outcome of routeRequest (lines 127-150): either the handler
registered under the exact method and path, or the built-in 404 response
whose body interpolates the path. -/
inductive DispatchResult : Type where
  | handled : HandlerId → DispatchResult
  | serverNotFound : String → DispatchResult
deriving DecidableEq

namespace SimpleServer

/-- get (lines 71-76): ensure the method map exists, then set the exact
path key. -/
def get (routes : Routes) (path : String) (h : HandlerId) : Routes :=
  setA routes "GET" (setA ((lookupA routes "GET").getD []) path h)

/-- The lookup of routeRequest: method map, then exact path. -/
def routeLookup (routes : Routes) (method path : String) : Option HandlerId :=
  (lookupA routes method).bind fun m => lookupA m path

/-- routeRequest (lines 127-150). -/
def routeRequest (routes : Routes) (method path : String) : DispatchResult :=
  match routeLookup routes method path with
  | some h => .handled h
  | none => .serverNotFound path

/-- One middleware stage as exercised by the claim and the spec test
scenario: its pre-continuation work appends its marker to the request
trace, and it then either invokes the continuation or returns without
doing so.  (Source middleware are arbitrary functions of (req, res,
next); the claim quantifies over exactly this family.) -/
structure MwStage : Type where
  marker : Nat
  callsNext : Bool

/-- The next closure of handleRequest (lines 108-118): while stages
remain, run the current stage (which appends its marker and decides
whether to call next again); past the last stage, dispatch (routeRequest,
recorded as a none entry in the trace). -/
def mwNext (stages : List MwStage) (t : List (Option Nat)) : List (Option Nat) :=
  match stages with
  | [] => t ++ [none]
  | s :: rest =>
      if s.callsNext then mwNext rest (t ++ [some s.marker]) else t ++ [some s.marker]

/-- handleRequest (lines 102-125): run the middleware chain when one is
registered, dispatch directly otherwise. -/
def handleRequestTrace (stages : List MwStage) (t : List (Option Nat)) : List (Option Nat) :=
  if stages.isEmpty then t ++ [none] else mwNext stages t

end SimpleServer

/-! ## DocumentationService (src/src/index.ts lines 319-1068)

Route registration, content seeding and the two route handlers the
claims are about.  The multi-kilobyte markdown and sample-code string
literals attached to seeded records are abbreviated to short placeholder
strings: the specification declares content strings out of scope, and no
claim computation ever reads them (the published filter excludes every
seeded page before its content could be inspected, and example code
fields are not searched). -/

namespace DocsService

/-- setupRoutes (lines 466-542): the five GET registrations in source
order, against an initially empty route table. -/
def docsRoutes : Routes :=
  SimpleServer.get
    (SimpleServer.get
      (SimpleServer.get
        (SimpleServer.get
          (SimpleServer.get [] "/" .home)
          "/:slug" .slugPage)
        "/examples" .examplesPage)
      "/api" .apiPage)
    "/api/search" .searchApi

/-- Dispatch of an inbound GET against the service routes. -/
def dispatchDocs (method path : String) : DispatchResult :=
  SimpleServer.routeRequest docsRoutes method path

/-- The seven page literals of setupDatabase (lines 344-401), fields in
source order; content strings abbreviated (see above). -/
def seedPages : List Rec :=
  [[("title", .vStr "Getting Started"), ("slug", .vStr "getting-started"),
    ("content", .vStr "Getting Started page content"),
    ("category", .vStr "getting-started"), ("order", .vNum 1),
    ("tags", .vList [.vStr "introduction", .vStr "setup", .vStr "quick-start"])],
   [("title", .vStr "Core Framework"), ("slug", .vStr "core"),
    ("content", .vStr "Core Framework page content"),
    ("category", .vStr "core"), ("order", .vNum 2),
    ("tags", .vList [.vStr "server", .vStr "routing", .vStr "database", .vStr "auth",
      .vStr "templating", .vStr "testing"])],
   [("title", .vStr "Enterprise Features"), ("slug", .vStr "enterprise"),
    ("content", .vStr "Enterprise Features page content"),
    ("category", .vStr "enterprise"), ("order", .vNum 3),
    ("tags", .vList [.vStr "graphql", .vStr "microservices", .vStr "api-docs",
      .vStr "file-upload", .vStr "email", .vStr "notifications"])],
   [("title", .vStr "Next-Generation Features"), ("slug", .vStr "nextgen"),
    ("content", .vStr "Next-Generation Features page content"),
    ("category", .vStr "nextgen"), ("order", .vNum 4),
    ("tags", .vList [.vStr "ai", .vStr "blockchain", .vStr "collaboration", .vStr "workflow"])],
   [("title", .vStr "Futuristic Features"), ("slug", .vStr "futuristic"),
    ("content", .vStr "Futuristic Features page content"),
    ("category", .vStr "futuristic"), ("order", .vNum 5),
    ("tags", .vList [.vStr "pwa", .vStr "voice", .vStr "webassembly", .vStr "webrtc"])],
   [("title", .vStr "API Reference"), ("slug", .vStr "api"),
    ("content", .vStr "API Reference page content"),
    ("category", .vStr "api"), ("order", .vNum 6),
    ("tags", .vList [.vStr "api", .vStr "reference", .vStr "endpoints", .vStr "types"])],
   [("title", .vStr "Examples & Tutorials"), ("slug", .vStr "examples"),
    ("content", .vStr "Examples page content"),
    ("category", .vStr "examples"), ("order", .vNum 7),
    ("tags", .vList [.vStr "examples", .vStr "tutorials", .vStr "guides", .vStr "code"])]]

/-- The two example literals of setupDatabase (lines 409-458), fields in
source order; code strings abbreviated. -/
def seedExamples : List Rec :=
  [[("title", .vStr "Basic Server Setup"),
    ("description", .vStr "Create a simple HTTP server with Synapse"),
    ("code", .vStr "basic server sample code"),
    ("language", .vStr "typescript"), ("category", .vStr "Core"),
    ("package", .vStr "@synapse/core"), ("isRunnable", .vBool true),
    ("dependencies", .vList [.vStr "@synapse/core", .vStr "@synapse/routing"])],
   [("title", .vStr "AI Integration with Web AI"),
    ("description", .vStr "Use Google Web AI for browser-based AI generation"),
    ("code", .vStr "web ai sample code"),
    ("language", .vStr "typescript"), ("category", .vStr "AI"),
    ("package", .vStr "@synapse/ai"), ("isRunnable", .vBool true),
    ("dependencies", .vList [.vStr "@synapse/ai"])]]

/-- The store after setupDatabase: the pages then the examples inserted
in source order (insert auto-creates both tables). -/
def seededDb : Db :=
  seedExamples.foldl (fun db e => (SimpleDatabase.insert db "documentation_examples" e).2)
    (seedPages.foldl (fun db p => (SimpleDatabase.insert db "documentation_pages" p).2) emptyDb)

/-- Does the haystack start with the needle. -/
def startsWithL : List Char → List Char → Bool
  | [], _ => true
  | _ :: _, [] => false
  | c :: cs, d :: ds => c == d && startsWithL cs ds

/-- JavaScript String.includes: the needle occurs somewhere in the
haystack (always true for the empty needle). -/
def hasInfix (needle : List Char) : List Char → Bool
  | [] => startsWithL needle []
  | c :: cs => startsWithL needle (c :: cs) || hasInfix needle cs

/-- String.prototype.toLowerCase, character by character. -/
def lowerData (s : String) : List Char :=
  s.data.map Char.toLower

/-- Case-insensitive substring test
(hay.toLowerCase().includes(needle.toLowerCase())). -/
def containsCI (hay needle : String) : Bool :=
  hasInfix (lowerData needle) (lowerData hay)

/-- A string field of a record.  The search handler calls .toLowerCase()
on the field, which would throw on a missing or non-string field; every
record the source filter reaches carries the accessed string fields, so
the throwing path is unexercised and collapsed to the empty string
here. -/
def fieldStr (r : Rec) (k : String) : String :=
  match lookupA r k with
  | some (.vStr s) => s
  | _ => ""

/-- The search endpoint handler body (lines 523-541): published pages
matched on title or content, then all examples matched on title or
description, concatenated; the response object also echoes the query. -/
def searchResults (db : Db) (query : String) : List Rec :=
  (SimpleDatabase.find db "documentation_pages" (some [("isPublished", .vBool true)])).filter
      (fun p => containsCI (fieldStr p "title") query || containsCI (fieldStr p "content") query)
    ++ (SimpleDatabase.find db "documentation_examples" none).filter
      (fun e => containsCI (fieldStr e "title") query ||
        containsCI (fieldStr e "description") query)

/-- What the slug-page handler sends: the 404 page, or the page template
rendered for a record. -/
inductive SlugResult : Type where
  | notFoundPage : SlugResult
  | renders : Rec → SlugResult

/-- The numeric ++ of page.views++ (line 491).  On a number it
increments; on undefined it yields NaN; string, boolean and Date numeric
coercion is collapsed to NaN too, unexercised by every claim and by
every reachable record. -/
def jsIncr : Option Val → Val
  | some (.vNum n) => .vNum (n + 1)
  | _ => .vNaN

/-- String.prototype.split with a single-character separator. -/
def splitOnChar (sep : Char) : List Char → List (List Char)
  | [] => [[]]
  | c :: cs =>
      if c = sep then [] :: splitOnChar sep cs
      else
        match splitOnChar sep cs with
        | [] => [[c]]
        | g :: gs => (c :: g) :: gs

/-- The slug handler (lines 480-501): the slug is the second
slash-separated url segment (or empty); pages are looked up by slug and
published flag; a miss renders the 404 page; a hit increments the views
counter of the stored record object in place, persists it through
update, and renders the page.  The in-place mutation and the subsequent
update write the same merged record, so the store effect is the update
alone. -/
def slugHandler (db : Db) (url : String) : SlugResult × Db :=
  let slug := String.mk ((splitOnChar '/' url.data).getD 1 [])
  match SimpleDatabase.find db "documentation_pages"
      (some [("slug", .vStr slug), ("isPublished", .vBool true)]) with
  | [] => (.notFoundPage, db)
  | page :: _ =>
      let newViews := jsIncr (lookupA page "views")
      let db1 :=
        match lookupA page "id" with
        | some (.vId n) =>
            (SimpleDatabase.update db "documentation_pages" n [("views", newViews)]).2
        | _ => db
      (.renders (setA page "views" newViews), db1)

/-- A store holding one page record that carries the published flag
(unlike the seeded ones), for the C1 counterexample. -/
def pubPageDb : Db :=
  (SimpleDatabase.insert emptyDb "documentation_pages"
    [("title", .vStr "Getting Started"), ("slug", .vStr "getting-started"),
     ("isPublished", .vBool true)]).2

end DocsService

/-- The loop template of the specification example. -/
def loopTemplate : String := "\x7b% for x in items %\x7d\x7b\x7bx.n\x7d\x7d,\x7b% endfor %\x7d"

/-- The for tag of a loop block, with the item and array variable names
as parameters (single spaces; the regex also accepts other whitespace). -/
def forTagChars (iv av : List Char) : List Char :=
  '{' :: '%' :: ' ' :: 'f' :: 'o' :: 'r' :: ' ' ::
    (iv ++ ' ' :: 'i' :: 'n' :: ' ' :: (av ++ [' ', '%', '}']))

/-- The endfor tag. -/
def endforChars : List Char := ['{', '%', ' ', 'e', 'n', 'd', 'f', 'o', 'r', ' ', '%', '}']

/-- A brace-brace itemVar dot field brace-brace token of a loop body,
with the variable and field names as parameters. -/
def itemTokenChars (iv fd : List Char) : List Char :=
  '{' :: '{' :: (iv ++ '.' :: (fd ++ ['}', '}']))

/-! ## Theorems -/

theorem lookupA_setA_self {κ : Type} [DecidableEq κ] {β : Type}
    (l : List (κ × β)) (k : κ) (v : β) : lookupA (setA l k v) k = some v := by
  induction l with
  | nil => simp [setA, lookupA]
  | cons p rest ih =>
      obtain ⟨k', w⟩ := p
      by_cases h : k' = k <;> simp [setA, lookupA, h, ih]

theorem lookupA_setA_ne {κ : Type} [DecidableEq κ] {β : Type}
    (l : List (κ × β)) (k k' : κ) (v : β) (h : k' ≠ k) :
    lookupA (setA l k v) k' = lookupA l k' := by
  induction l with
  | nil => simp [setA, lookupA, Ne.symm h]
  | cons p rest ih =>
      obtain ⟨k₀, w⟩ := p
      by_cases h0 : k₀ = k
      · subst h0
        have hne : k₀ ≠ k' := fun hh => h hh.symm
        simp [setA, lookupA, hne]
      · by_cases h1 : k₀ = k' <;> simp [setA, lookupA, h0, h1, h, ih]

theorem setA_setA_same {κ : Type} [DecidableEq κ] {β : Type}
    (l : List (κ × β)) (k : κ) (v w : β) : setA (setA l k v) k w = setA l k w := by
  induction l with
  | nil => simp [setA]
  | cons p rest ih =>
      obtain ⟨k₀, u⟩ := p
      by_cases h : k₀ = k <;> simp [setA, h, ih]

theorem lookupA_mem {κ : Type} [DecidableEq κ] {β : Type}
    {l : List (κ × β)} {k : κ} {v : β} (h : lookupA l k = some v) : (k, v) ∈ l := by
  induction l with
  | nil => simp [lookupA] at h
  | cons p rest ih =>
      obtain ⟨k₀, w⟩ := p
      by_cases h0 : k₀ = k
      · subst h0
        simp [lookupA] at h
        simp [h]
      · simp [lookupA, h0] at h
        exact List.mem_cons_of_mem _ (ih h)

theorem lookupA_eq_none_of_not_mem_keys {κ : Type} [DecidableEq κ] {β : Type}
    {l : List (κ × β)} {k : κ} (h : k ∉ l.map Prod.fst) : lookupA l k = none := by
  induction l with
  | nil => rfl
  | cons p rest ih =>
      obtain ⟨k₀, w⟩ := p
      have h1 : ¬k₀ = k := by
        intro hh
        exact h (by simp [hh])
      have h2 : k ∉ rest.map Prod.fst := by
        intro hh
        exact h (by simp [hh])
      simp [lookupA, h1, ih h2]

theorem lookupA_insert_id (db : Db) (t : String) (r : Rec) :
    lookupA (SimpleDatabase.insert db t r).1 "id" = some (.vId db.nextId) := by
  unfold SimpleDatabase.insert
  cases hl : lookupA db.tables t
  all_goals simp only [hl]
  all_goals rw [lookupA_setA_ne _ _ _ _ (by decide), lookupA_setA_ne _ _ _ _ (by decide),
    lookupA_setA_self]
  all_goals try rfl

theorem lookupA_insert_createdAt (db : Db) (t : String) (r : Rec) :
    lookupA (SimpleDatabase.insert db t r).1 "createdAt" = some (.vDate (db.clock + 1)) := by
  unfold SimpleDatabase.insert
  cases hl : lookupA db.tables t
  all_goals simp only [hl]
  all_goals rw [lookupA_setA_ne _ _ _ _ (by decide), lookupA_setA_self]
  all_goals try rfl

theorem lookupA_insert_updatedAt (db : Db) (t : String) (r : Rec) :
    lookupA (SimpleDatabase.insert db t r).1 "updatedAt" = some (.vDate (db.clock + 1)) := by
  unfold SimpleDatabase.insert
  cases hl : lookupA db.tables t
  all_goals simp only [hl]
  all_goals rw [lookupA_setA_self]
  all_goals try rfl

theorem retIdOf_insert (db : Db) (t : String) (r : Rec) :
    retIdOf (SimpleDatabase.insert db t r).1 = db.nextId := by
  rw [retIdOf, lookupA_insert_id]

theorem insert_snd_nextId (db : Db) (t : String) (r : Rec) :
    (SimpleDatabase.insert db t r).2.nextId = db.nextId + 1 := by
  unfold SimpleDatabase.insert
  cases hl : lookupA db.tables t <;> simp [hl, SimpleDatabase.createTable]

theorem applyOp_nextId_le (db : Db) (op : DbOp) : db.nextId ≤ (applyOp db op).nextId := by
  cases op with
  | createTable n => exact Nat.le_refl _
  | insert t r => rw [applyOp, insert_snd_nextId]; omega
  | update t id u =>
      show db.nextId ≤ (SimpleDatabase.update db t id u).2.nextId
      unfold SimpleDatabase.update
      cases hl : lookupA db.tables t with
      | none => exact Nat.le_refl _
      | some tbl => cases hr : lookupA tbl id <;> simp [hr]
  | delete t id =>
      show db.nextId ≤ (SimpleDatabase.delete db t id).2.nextId
      unfold SimpleDatabase.delete
      cases hl : lookupA db.tables t with
      | none => exact Nat.le_refl _
      | some tbl => cases hr : lookupA tbl id <;> simp [hr]

theorem insertIds_lb : ∀ (ops : List DbOp) (db : Db), ∀ x ∈ insertIds db ops, db.nextId ≤ x := by
  intro ops
  induction ops with
  | nil => intro db x hx; simp [insertIds] at hx
  | cons op rest ih =>
      intro db x hx
      have hmono := applyOp_nextId_le db op
      cases op with
      | insert t r =>
          simp only [insertIds] at hx
          rcases List.mem_cons.mp hx with h1 | h1
          · rw [h1, retIdOf_insert]
          · have := ih _ x h1
            omega
      | createTable n =>
          simp only [insertIds] at hx
          have := ih _ x hx
          omega
      | update t id u =>
          simp only [insertIds] at hx
          have := ih _ x hx
          omega
      | delete t id =>
          simp only [insertIds] at hx
          have := ih _ x hx
          omega

theorem insertIds_nodup : ∀ (ops : List DbOp) (db : Db), (insertIds db ops).Nodup := by
  intro ops
  induction ops with
  | nil => intro db; simp [insertIds]
  | cons op rest ih =>
      intro db
      cases op with
      | insert t r =>
          simp only [insertIds]
          refine List.nodup_cons.mpr ⟨?_, ih _⟩
          intro hmem
          have hge := insertIds_lb rest _ _ hmem
          have h1 : retIdOf (SimpleDatabase.insert db t r).1 = db.nextId := retIdOf_insert db t r
          have h2 : (applyOp db (DbOp.insert t r)).nextId = db.nextId + 1 :=
            insert_snd_nextId db t r
          omega
      | createTable n => simpa [insertIds] using ih _
      | update t id u => simpa [insertIds] using ih _
      | delete t id => simpa [insertIds] using ih _

/-! ## Auxiliary facts about find, findById, update and merge -/

theorem findById_some {db : Db} {T : String} {id : Nat} {r : Rec}
    (h : SimpleDatabase.findById db T id = some r) :
    ∃ tbl, lookupA db.tables T = some tbl ∧ lookupA tbl id = some r := by
  unfold SimpleDatabase.findById at h
  cases hl : lookupA db.tables T with
  | none => rw [hl] at h; exact absurd h (by simp)
  | some tbl => rw [hl] at h; exact ⟨tbl, rfl, h⟩

theorem update_eq (db : Db) (T : String) (id : Nat) (u : Rec) (tbl : List (Nat × Rec))
    (record : Rec) (hl : lookupA db.tables T = some tbl) (hr : lookupA tbl id = some record) :
    SimpleDatabase.update db T id u =
      (true,
        { db with
            tables := setA db.tables T (setA tbl id
              (setA (SimpleDatabase.mergeRec record u) "updatedAt" (.vDate (db.clock + 1))))
            clock := db.clock + 1 }) := by
  unfold SimpleDatabase.update
  simp only [hl, hr]

theorem update_fst_true {db : Db} {T : String} {id : Nat} {u : Rec}
    (h : (SimpleDatabase.update db T id u).1 = true) :
    ∃ tbl record, lookupA db.tables T = some tbl ∧ lookupA tbl id = some record := by
  unfold SimpleDatabase.update at h
  cases hl : lookupA db.tables T with
  | none => rw [hl] at h; exact absurd h (by simp)
  | some tbl =>
      cases hr : lookupA tbl id with
      | none => simp only [hl, hr] at h; exact absurd h (by simp)
      | some record => exact ⟨tbl, record, rfl, hr⟩

theorem mergeRec_lookup_none (u : Rec) : ∀ (r : Rec) (k : String), lookupA u k = none →
    lookupA (SimpleDatabase.mergeRec r u) k = lookupA r k := by
  induction u with
  | nil => intro r k _; rfl
  | cons p rest ih =>
      intro r k h
      obtain ⟨k0, v0⟩ := p
      have hne : ¬k0 = k := by
        intro hh
        rw [lookupA, if_pos hh] at h
        exact Option.noConfusion h
      rw [lookupA, if_neg hne] at h
      show lookupA (SimpleDatabase.mergeRec (setA r k0 v0) rest) k = lookupA r k
      rw [ih _ k h, lookupA_setA_ne _ _ _ _ (fun hh => hne hh.symm)]

theorem mergeRec_lookup_mem (u : Rec) : ∀ (r : Rec) (k : String) (w : Val),
    (u.map Prod.fst).Nodup → (k, w) ∈ u →
    lookupA (SimpleDatabase.mergeRec r u) k = some w := by
  induction u with
  | nil => intro r k w _ hm; simp at hm
  | cons p rest ih =>
      intro r k w hnd hm
      obtain ⟨k0, v0⟩ := p
      rcases List.mem_cons.mp hm with h1 | h1
      · obtain ⟨hk, hv⟩ := Prod.mk.injEq .. ▸ h1
        subst hk
        subst hv
        have hkeys : k ∉ rest.map Prod.fst := by
          have := (List.nodup_cons.mp hnd).1
          simpa using this
        show lookupA (SimpleDatabase.mergeRec (setA r k w) rest) k = some w
        rw [mergeRec_lookup_none rest _ k (lookupA_eq_none_of_not_mem_keys hkeys),
          lookupA_setA_self]
      · exact ih _ k w (List.nodup_cons.mp hnd).2 h1

/-! ## Well-formedness of reachable store states

Every stored record has an updatedAt stamp no later than the current
clock, and every stored identifier is below the supply counter.  This is
exactly the invariant the real program maintains (stamps come from past
new Date() calls, identifiers from past randomUUID calls). -/

theorem wf_updatedAt {db : Db} {T : String} {id : Nat} {r : Rec}
    (hwf : WfDb db = true) (hr : SimpleDatabase.findById db T id = some r) :
    ∃ t0, lookupA r "updatedAt" = some (.vDate t0) ∧ t0 ≤ db.clock := by
  obtain ⟨tbl, hl, hid⟩ := findById_some hr
  have h1 := List.all_eq_true.mp hwf (T, tbl) (lookupA_mem hl)
  have h2 := List.all_eq_true.mp h1 (id, r) (lookupA_mem hid)
  have h3 : wfRecB db.clock r = true := (((Bool.and_eq_true _ _) ▸ h2) : _ ∧ _).2
  rw [wfRecB] at h3
  cases hu : lookupA r "updatedAt" with
  | none => rw [hu] at h3; exact absurd h3 (by simp)
  | some v =>
      rw [hu] at h3
      cases v <;> simp at h3
      exact ⟨_, rfl, h3⟩

/-! ## Claim theorems about SimpleDatabase -/

/-- Claim C3: every record returned by insert carries an identifier
distinct from that of every other record ever inserted during the process
lifetime (over any sequence of store operations from any starting state),
and its createdAt and updatedAt stamps are both set and equal at
insertion time. -/
theorem c3_insert_identifier_unique_timestamps_equal :
    (∀ (db : Db) (ops : List DbOp), (insertIds db ops).Nodup) ∧
    (∀ (db : Db) (t : String) (r : Rec),
      lookupA (SimpleDatabase.insert db t r).1 "id" = some (.vId db.nextId) ∧
      lookupA (SimpleDatabase.insert db t r).1 "createdAt" = some (.vDate (db.clock + 1)) ∧
      lookupA (SimpleDatabase.insert db t r).1 "createdAt" =
        lookupA (SimpleDatabase.insert db t r).1 "updatedAt") :=
  ⟨fun db ops => insertIds_nodup ops db,
   fun db t r =>
    ⟨lookupA_insert_id db t r, lookupA_insert_createdAt db t r, by
      rw [lookupA_insert_createdAt, lookupA_insert_updatedAt]⟩⟩

/-- Claim C4 (amended): for a field f other than updatedAt itself, update
of a present record followed by findById yields f = v and a strictly
later updatedAt (updates naming updatedAt are overridden by the fresh
stamp, see the counterexample). -/
theorem c4_update_then_findById (db : Db) (T : String) (id : Nat) (f : String) (v : Val)
    (r : Rec) (hwf : WfDb db = true) (hf : f ≠ "updatedAt")
    (hr : SimpleDatabase.findById db T id = some r) :
    (SimpleDatabase.update db T id [(f, v)]).1 = true ∧
    ∃ r', SimpleDatabase.findById (SimpleDatabase.update db T id [(f, v)]).2 T id = some r' ∧
      lookupA r' f = some v ∧
      ∃ t0, lookupA r "updatedAt" = some (.vDate t0) ∧
        lookupA r' "updatedAt" = some (.vDate (db.clock + 1)) ∧ t0 < db.clock + 1 := by
  obtain ⟨tbl, hl, hid⟩ := findById_some hr
  have hu := update_eq db T id [(f, v)] tbl r hl hid
  obtain ⟨t0, ht0, hle⟩ := wf_updatedAt hwf hr
  refine ⟨by rw [hu], setA (SimpleDatabase.mergeRec r [(f, v)]) "updatedAt"
    (.vDate (db.clock + 1)), ?_, ?_, t0, ht0, lookupA_setA_self _ _ _, by omega⟩
  · rw [hu]
    unfold SimpleDatabase.findById
    simp only [lookupA_setA_self]
  · rw [lookupA_setA_ne _ _ _ _ hf]
    show lookupA (setA r f v) f = some v
    exact lookupA_setA_self _ _ _

/-- Claim C4 counterexample: the claim quantifies over every field name f,
but performing update with f = updatedAt does not make the stored field
equal to the supplied value: the fresh stamp overrides it. -/
theorem c4_counterexample :
    SimpleDatabase.findById
        (SimpleDatabase.update oneRecDb "t" 0 [("updatedAt", .vStr "x")]).2 "t" 0 =
      some [("id", .vId 0), ("createdAt", .vDate 1), ("updatedAt", .vDate 2)] ∧
    Val.vDate 2 ≠ Val.vStr "x" :=
  ⟨rfl, fun h => Val.noConfusion h⟩

/-- Claim C4 witness: the amended theorem applied to a concrete store. -/
theorem c4_witness :
    (SimpleDatabase.update oneRecDb "t" 0 [("name", .vStr "x")]).1 = true ∧
    ∃ r', SimpleDatabase.findById
        (SimpleDatabase.update oneRecDb "t" 0 [("name", .vStr "x")]).2 "t" 0 = some r' ∧
      lookupA r' "name" = some (.vStr "x") ∧
      ∃ t0, lookupA [("id", Val.vId 0), ("createdAt", Val.vDate 1), ("updatedAt", Val.vDate 1)]
          "updatedAt" = some (.vDate t0) ∧
        lookupA r' "updatedAt" = some (.vDate (oneRecDb.clock + 1)) ∧ t0 < oneRecDb.clock + 1 :=
  c4_update_then_findById oneRecDb "t" 0 "name" (.vStr "x")
    [("id", .vId 0), ("createdAt", .vDate 1), ("updatedAt", .vDate 1)]
    (by rfl) (by decide) (by rfl)

/-- Claim C5: on a missing table, find returns the empty sequence,
findById returns none, update and delete return false; on an existing
table with a missing identifier, findById returns none and update and
delete return false; in each case the returned state is exactly the input
state, and every operation is a total function (no exceptional
outcome). -/
theorem c5_missing_table_or_id (db : Db) (T : String) (id : Nat) (u : Rec)
    (cond : Option Rec) :
    (lookupA db.tables T = none →
      SimpleDatabase.find db T cond = [] ∧
      SimpleDatabase.findById db T id = none ∧
      SimpleDatabase.update db T id u = (false, db) ∧
      SimpleDatabase.delete db T id = (false, db)) ∧
    (∀ tbl, lookupA db.tables T = some tbl → lookupA tbl id = none →
      SimpleDatabase.findById db T id = none ∧
      SimpleDatabase.update db T id u = (false, db) ∧
      SimpleDatabase.delete db T id = (false, db)) := by
  constructor
  · intro h
    refine ⟨?_, ?_, ?_, ?_⟩ <;>
      simp [SimpleDatabase.find, SimpleDatabase.findById, SimpleDatabase.update,
        SimpleDatabase.delete, h]
  · intro tbl h1 h2
    refine ⟨?_, ?_, ?_⟩ <;>
      simp [SimpleDatabase.findById, SimpleDatabase.update, SimpleDatabase.delete, h1, h2]

/-- Claim C5 witness: the theorem applied to a concrete store, a missing
table name and a missing identifier. -/
theorem c5_witness :
    (SimpleDatabase.find oneTableDb "missing" none = [] ∧
     SimpleDatabase.findById oneTableDb "missing" 0 = none ∧
     SimpleDatabase.update oneTableDb "missing" 0 [] = (false, oneTableDb) ∧
     SimpleDatabase.delete oneTableDb "missing" 0 = (false, oneTableDb)) ∧
    (SimpleDatabase.findById oneTableDb "t" 5 = none ∧
     SimpleDatabase.update oneTableDb "t" 5 [] = (false, oneTableDb) ∧
     SimpleDatabase.delete oneTableDb "t" 5 = (false, oneTableDb)) :=
  ⟨(c5_missing_table_or_id oneTableDb "missing" 0 [] none).1 (by rfl),
   (c5_missing_table_or_id oneTableDb "t" 5 [] none).2 [] (by rfl) (by rfl)⟩

/-- Claim C6: createTable makes the named table exist and empty whatever
it held before, re-creation resets it, doing it twice equals doing it
once, and the operation is a total function (no error on
re-creation). -/
theorem c6_createTable_idempotent_reset (db : Db) (name : String) :
    lookupA (SimpleDatabase.createTable db name).tables name = some [] ∧
    SimpleDatabase.find (SimpleDatabase.createTable db name) name none = [] ∧
    SimpleDatabase.createTable (SimpleDatabase.createTable db name) name =
      SimpleDatabase.createTable db name := by
  refine ⟨lookupA_setA_self _ _ _, ?_, ?_⟩
  · show SimpleDatabase.find
      { db with tables := setA db.tables name [] } name none = []
    unfold SimpleDatabase.find
    simp only [lookupA_setA_self]
    rfl
  · show ({ db with tables := setA (setA db.tables name []) name [] } : Db) =
      { db with tables := setA db.tables name [] }
    rw [setA_setA_same]

/-- Claim C10: a successful update touches nothing but the targeted
record: other tables and other keys of the same table read back
unchanged, unnamed fields other than updatedAt keep their values, and an
update naming the id field overwrites that field while the record stays
stored under its original key. -/
theorem c10_update_frame (db : Db) (T : String) (id : Nat) (u : Rec)
    (h : (SimpleDatabase.update db T id u).1 = true) :
    (∀ T', T' ≠ T →
      lookupA (SimpleDatabase.update db T id u).2.tables T' = lookupA db.tables T') ∧
    (∀ id', id' ≠ id →
      SimpleDatabase.findById (SimpleDatabase.update db T id u).2 T id' =
        SimpleDatabase.findById db T id') ∧
    (∀ r, SimpleDatabase.findById db T id = some r →
      ∃ r', SimpleDatabase.findById (SimpleDatabase.update db T id u).2 T id = some r' ∧
        (∀ k, k ≠ "updatedAt" → lookupA u k = none → lookupA r' k = lookupA r k) ∧
        (∀ w, (u.map Prod.fst).Nodup → ("id", w) ∈ u → lookupA r' "id" = some w)) := by
  obtain ⟨tbl, record, hl, hid⟩ := update_fst_true h
  have hu := update_eq db T id u tbl record hl hid
  refine ⟨?_, ?_, ?_⟩
  · intro T' hT'
    rw [hu]
    exact lookupA_setA_ne _ _ _ _ hT'
  · intro id' hid'
    rw [hu]
    unfold SimpleDatabase.findById
    simp only [lookupA_setA_self, hl, lookupA_setA_ne _ _ _ _ hid']
  · intro r hr
    have hrec : record = r := by
      obtain ⟨tbl2, hl2, hid2⟩ := findById_some hr
      rw [hl] at hl2
      cases hl2
      rw [hid] at hid2
      exact Option.some.inj hid2
    subst hrec
    refine ⟨setA (SimpleDatabase.mergeRec record u) "updatedAt" (.vDate (db.clock + 1)),
      ?_, ?_, ?_⟩
    · rw [hu]
      unfold SimpleDatabase.findById
      simp only [lookupA_setA_self]
    · intro k hk hkn
      rw [lookupA_setA_ne _ _ _ _ hk, mergeRec_lookup_none u record k hkn]
    · intro w hnd hmem
      rw [lookupA_setA_ne _ _ _ _ (by decide), mergeRec_lookup_mem u record "id" w hnd hmem]

/-- Claim C10 witness: the frame theorem applied to a concrete store with
an update that also overwrites the id field. -/
theorem c10_witness :
    lookupA (SimpleDatabase.update twoTableDb "t" 0 [("id", .vStr "evil")]).2.tables "u" =
      lookupA twoTableDb.tables "u" ∧
    SimpleDatabase.findById (SimpleDatabase.update twoTableDb "t" 0 [("id", .vStr "evil")]).2
      "t" 5 = SimpleDatabase.findById twoTableDb "t" 5 ∧
    ∃ r', SimpleDatabase.findById
        (SimpleDatabase.update twoTableDb "t" 0 [("id", .vStr "evil")]).2 "t" 0 = some r' ∧
      lookupA r' "name" =
        lookupA [("name", Val.vStr "a"), ("id", Val.vId 0), ("createdAt", Val.vDate 1),
          ("updatedAt", Val.vDate 1)] "name" ∧
      lookupA r' "id" = some (.vStr "evil") := by
  have h := c10_update_frame twoTableDb "t" 0 [("id", .vStr "evil")] (by rfl)
  obtain ⟨h1, h2, h3⟩ := h
  obtain ⟨r', hr1, hr2, hr3⟩ := h3
    [("name", Val.vStr "a"), ("id", Val.vId 0), ("createdAt", Val.vDate 1),
      ("updatedAt", Val.vDate 1)] (by rfl)
  exact ⟨h1 "u" (by decide), h2 5 (by decide),
    r', hr1, hr2 "name" (by decide) (by rfl), hr3 (.vStr "evil") (by decide) (by simp)⟩

/-! ## SimpleTemplateEngine (src/src/index.ts lines 154-185)

The engine performs three global regex replacement passes over the whole
template, in this fixed order: variable substitution, conditional blocks,
loop blocks.  We embed each pass as a left-to-right scanner with the exact
semantics of the JavaScript regexes involved: at each position the
pattern either matches (deterministically: the character classes of
adjacent regex pieces are disjoint, so greedy matching never needs to
backtrack) and scanning resumes after the match without rescanning the
replacement, or it fails and the scanner emits one character and advances
by one. -/

/-! ## Claim theorems about routing, middleware and search -/

theorem mwNext_all_call : ∀ (stages : List SimpleServer.MwStage) (t : List (Option Nat)),
    (∀ s ∈ stages, s.callsNext = true) →
    SimpleServer.mwNext stages t = t ++ stages.map (fun s => some s.marker) ++ [none] := by
  intro stages
  induction stages with
  | nil => intro t _; simp [SimpleServer.mwNext]
  | cons s rest ih =>
      intro t h
      rw [SimpleServer.mwNext]
      rw [if_pos (h s (List.mem_cons_self s rest))]
      rw [ih (t ++ [some s.marker]) (fun x hx => h x (List.mem_cons_of_mem s hx))]
      simp

theorem mwNext_halts : ∀ (stages : List SimpleServer.MwStage) (t : List (Option Nat)),
    (∃ s ∈ stages, s.callsNext = false) → Option.none ∉ t →
    Option.none ∉ SimpleServer.mwNext stages t := by
  intro stages
  induction stages with
  | nil => intro t h _; simp at h
  | cons s rest ih =>
      intro t h ht
      rw [SimpleServer.mwNext]
      by_cases hc : s.callsNext = true
      · rw [if_pos hc]
        obtain ⟨s1, hs1, hfalse⟩ := h
        rcases List.mem_cons.mp hs1 with he | he
        · rw [he] at hfalse; rw [hfalse] at hc; exact absurd hc (by simp)
        · exact ih _ ⟨s1, he, hfalse⟩ (by simp [ht])
      · rw [if_neg hc]
        simp [ht]

/-- Claim C8: when every registered middleware stage invokes its
continuation, the request trace is the stage markers in registration
order followed by the dispatch entry, so every stage completes its
pre-continuation work before the handler (or 404 fallback) runs; and a
request whose chain contains a stage that never invokes its continuation
never reaches dispatch. -/
theorem c8_middleware_chain :
    (∀ (stages : List SimpleServer.MwStage) (t : List (Option Nat)),
      (∀ s ∈ stages, s.callsNext = true) →
      SimpleServer.handleRequestTrace stages t =
        t ++ stages.map (fun s => some s.marker) ++ [none]) ∧
    (∀ stages : List SimpleServer.MwStage,
      (∃ s ∈ stages, s.callsNext = false) →
      Option.none ∉ SimpleServer.handleRequestTrace stages []) := by
  constructor
  · intro stages t h
    rw [SimpleServer.handleRequestTrace]
    cases stages with
    | nil => simp
    | cons s rest => rw [if_neg (by simp)]; exact mwNext_all_call _ _ h
  · intro stages h
    rw [SimpleServer.handleRequestTrace]
    cases stages with
    | nil => obtain ⟨s, hs, _⟩ := h; simp at hs
    | cons s rest =>
        rw [if_neg (by simp)]
        exact mwNext_halts _ _ h (by simp)

/-- Claim C8 witness: three marker stages that all call next run in
order before dispatch; a chain with a non-calling stage never
dispatches. -/
theorem c8_witness :
    SimpleServer.handleRequestTrace
        [⟨1, true⟩, ⟨2, true⟩, ⟨3, true⟩] [] =
      [] ++ [(⟨1, true⟩ : SimpleServer.MwStage), ⟨2, true⟩, ⟨3, true⟩].map
        (fun s => some s.marker) ++ [none] ∧
    Option.none ∉ SimpleServer.handleRequestTrace [⟨1, true⟩, ⟨2, false⟩] [] :=
  ⟨c8_middleware_chain.1 [⟨1, true⟩, ⟨2, true⟩, ⟨3, true⟩] [] (by intro s hs; fin_cases hs <;> rfl),
   c8_middleware_chain.2 [⟨1, true⟩, ⟨2, false⟩] ⟨⟨2, false⟩, by simp, rfl⟩⟩

/-- Claim C9 (code bug evidence): after the seeding performed by
setupDatabase, the Getting Started page is stored, yet the published
filter matches no page (the seeded literals carry no isPublished field
and the filter requires isPublished strictly equal to true), so the
search endpoint returns no results at all for the query getting. -/
theorem c9_search_returns_no_seeded_page :
    (SimpleDatabase.find DocsService.seededDb "documentation_pages" none).map
        (fun r => DocsService.fieldStr r "title") =
      ["Getting Started", "Core Framework", "Enterprise Features",
       "Next-Generation Features", "Futuristic Features", "API Reference",
       "Examples & Tutorials"] ∧
    SimpleDatabase.find DocsService.seededDb "documentation_pages"
      (some [("isPublished", .vBool true)]) = [] ∧
    DocsService.searchResults DocsService.seededDb "getting" = [] :=
  ⟨rfl, rfl, rfl⟩

/-- Claim C1 counterexample: a stored, published page with slug
getting-started, yet the dispatcher sends GET /getting-started to its
built-in 404 response, not to the slug handler. -/
theorem c1_counterexample :
    SimpleDatabase.find DocsService.pubPageDb "documentation_pages"
        (some [("slug", .vStr "getting-started"), ("isPublished", .vBool true)]) =
      [[("title", .vStr "Getting Started"), ("slug", .vStr "getting-started"),
        ("isPublished", .vBool true), ("id", .vId 0), ("createdAt", .vDate 1),
        ("updatedAt", .vDate 1)]] ∧
    DocsService.dispatchDocs "GET" "/getting-started" =
      .serverNotFound "/getting-started" ∧
    DispatchResult.serverNotFound "/getting-started" ≠
      DispatchResult.handled HandlerId.slugPage :=
  ⟨rfl, rfl, by decide⟩

/-- Claim C1 (amended): the dispatcher matches paths exactly, so the slug
handler is reached only through the literal path /:slug; there it
extracts the slug text :slug, matches no stored page, and renders the
404 page leaving the store untouched; every other unregistered GET path
gets the built-in 404 of the dispatcher. -/
theorem c1_exact_match_routing :
    DocsService.dispatchDocs "GET" "/:slug" = .handled .slugPage ∧
    DocsService.slugHandler DocsService.seededDb "/:slug" =
      (.notFoundPage, DocsService.seededDb) ∧
    ∀ p : String,
      p ∉ (["/", "/:slug", "/examples", "/api", "/api/search"] : List String) →
      DocsService.dispatchDocs "GET" p = .serverNotFound p := by
  refine ⟨rfl, rfl, ?_⟩
  intro p hp
  have h1 : ¬("/" = p) := fun hh => hp (by rw [← hh]; simp)
  have h2 : ¬("/:slug" = p) := fun hh => hp (by rw [← hh]; simp)
  have h3 : ¬("/examples" = p) := fun hh => hp (by rw [← hh]; simp)
  have h4 : ¬("/api" = p) := fun hh => hp (by rw [← hh]; simp)
  have h5 : ¬("/api/search" = p) := fun hh => hp (by rw [← hh]; simp)
  have hnone : SimpleServer.routeLookup DocsService.docsRoutes "GET" p = none := by
    have hg : lookupA DocsService.docsRoutes "GET" =
        some [("/", HandlerId.home), ("/:slug", .slugPage), ("/examples", .examplesPage),
          ("/api", .apiPage), ("/api/search", .searchApi)] := rfl
    rw [SimpleServer.routeLookup, hg]
    simp [lookupA, h1, h2, h3, h4, h5]
  rw [DocsService.dispatchDocs, SimpleServer.routeRequest, hnone]

/-- Claim C1 witness: the unregistered-path clause of the amended claim
at the path of the seeded Getting Started page. -/
theorem c1_witness :
    DocsService.dispatchDocs "GET" "/getting-started" =
      .serverNotFound "/getting-started" :=
  c1_exact_match_routing.2.2 "/getting-started" (by decide)

/-! ## Claim theorems about the template engine -/

theorem substVars_cons_ne (ctx : List (String × Val)) (c : Char) (cs : List Char)
    (h : c ≠ '{') : substVars ctx (c :: cs) = c :: substVars ctx cs := by
  rw [substVars.eq_def]
  split
  · simp_all
  · simp_all
  · simp_all

theorem takeWord_run (w : List Char) (d : Char) (rest : List Char)
    (hw : ∀ c ∈ w, isWordChar c = true) (hd : isWordChar d = false) :
    takeWord (w ++ d :: rest) = (w, d :: rest) := by
  induction w with
  | nil => simp [takeWord, hd]
  | cons c cs ih =>
      have hc := hw c (List.mem_cons_self c cs)
      simp [takeWord, hc, ih (fun x hx => hw x (List.mem_cons_of_mem c hx))]

theorem substVars_token (ctx : List (String × Val)) (w rest : List Char)
    (hw1 : w ≠ []) (hw : ∀ c ∈ w, isWordChar c = true) :
    substVars ctx ('{' :: '{' :: (w ++ '}' :: '}' :: rest)) =
      (jsOrEmpty (lookupA ctx (String.mk w))).data ++ substVars ctx rest := by
  have ht : takeWord (w ++ '}' :: '}' :: rest) = (w, '}' :: '}' :: rest) :=
    takeWord_run w '}' ('}' :: rest) hw (by decide)
  have hw2 : w.isEmpty = false := by cases w with
    | nil => exact absurd rfl hw1
    | cons a b => rfl
  rw [substVars.eq_def]
  simp only [ht, hw2]
  rw [if_neg (by simp)]
  split
  · rename_i rest2 hm2
    rw [ht] at hm2
    simp at hm2
    rw [hm2]
  · rename_i hx
    exact (hx rest (congrArg Prod.snd ht)).elim

theorem substVars_no_brace_run (ctx : List (String × Val)) (pre l : List Char)
    (h : ∀ c ∈ pre, c ≠ '{') : substVars ctx (pre ++ l) = pre ++ substVars ctx l := by
  induction pre with
  | nil => simp
  | cons c cs ih =>
      rw [List.cons_append, substVars_cons_ne ctx c _ (h c (List.mem_cons_self c cs)),
        ih (fun x hx => h x (List.mem_cons_of_mem c hx))]
      rfl

/-- Claim C2 (amended): wherever a brace-brace name brace-brace token
occurs (after any brace-free run), the variable pass replaces it by the
string form of the context entry when that entry is present and truthy,
and by the empty string when it is absent or falsy; the two
specification examples hold as stated. -/
theorem c2_variable_substitution (ctx : List (String × Val)) (name : String)
    (pre post : List Char) (hpre : ∀ c ∈ pre, c ≠ '{')
    (hname1 : name.data ≠ []) (hname2 : ∀ c ∈ name.data, isWordChar c = true) :
    (substVars ctx (pre ++ '{' :: '{' :: (name.data ++ '}' :: '}' :: post)) =
      pre ++ (jsOrEmpty (lookupA ctx name)).data ++ substVars ctx post) ∧
    SimpleTemplateEngine.render "\x7b\x7ba\x7d\x7d" [("a", .vStr "x")] = "x" ∧
    SimpleTemplateEngine.render "\x7b\x7bmissing\x7d\x7d" [] = "" := by
  refine ⟨?_, ?_, ?_⟩
  · rw [substVars_no_brace_run ctx pre _ hpre,
      substVars_token ctx name.data post hname1 hname2]
    simp
  · simp [SimpleTemplateEngine.render, substVars, condPass, loopPass, takeWord, isWordChar,
      parseIfTag, parseForTag, matchLit, dropSpaces, takeSpaces1, jsOrEmpty, lookupA, truthy,
      jsToString, jsToStringBase, findEnd, parseEndTag, isSpaceChar]
  · simp [SimpleTemplateEngine.render, substVars, condPass, loopPass, takeWord, isWordChar,
      parseIfTag, parseForTag, matchLit, dropSpaces, takeSpaces1, jsOrEmpty, lookupA, truthy,
      jsToString, jsToStringBase, findEnd, parseEndTag, isSpaceChar]

/-- Claim C2 witness: the amended replacement equation at a concrete
context, name and surrounding text. -/
theorem c2_witness :
    substVars [("a", Val.vStr "x")]
        ("A".data ++ '{' :: '{' :: ("a".data ++ '}' :: '}' :: "B".data)) =
      "A".data ++ (jsOrEmpty (lookupA [("a", Val.vStr "x")] "a")).data ++
        substVars [("a", Val.vStr "x")] "B".data :=
  (c2_variable_substitution [("a", .vStr "x")] "a" "A".data "B".data
    (by decide) (by decide) (by decide)).1

/-- Claim C2 counterexample: the key a is present in the context with
value 0, whose string form is the one-character string 0, yet the pass
substitutes the empty string (the source applies value-or-empty, which
discards present falsy values). -/
theorem c2_counterexample :
    SimpleTemplateEngine.render "\x7b\x7ba\x7d\x7d" [("a", .vNum 0)] = "" ∧
    ("" : String) ≠ "0" := by
  constructor
  · simp [SimpleTemplateEngine.render, substVars, condPass, loopPass, takeWord, isWordChar,
      parseIfTag, parseForTag, matchLit, dropSpaces, takeSpaces1, jsOrEmpty, lookupA, truthy,
      jsToString, jsToStringBase, findEnd, parseEndTag, isSpaceChar]
  · decide

theorem word_not_space (c : Char) (h : isWordChar c = true) : isSpaceChar c = false := by
  by_contra hc
  have hc2 : isSpaceChar c = true := by
    cases hval : isSpaceChar c
    · exact absurd hval hc
    · rfl
  simp only [isSpaceChar, Bool.or_eq_true, beq_iff_eq] at hc2
  rcases hc2 with ((((h1 | h1) | h1) | h1) | h1) | h1 <;> subst h1 <;>
    exact absurd h (by decide)

theorem word_ne_pct (c : Char) (h : isWordChar c = true) : c ≠ '%' := by
  intro he
  rw [he] at h
  exact absurd h (by decide)

theorem word_ne_brace (c : Char) (h : isWordChar c = true) : c ≠ '{' := by
  intro he
  rw [he] at h
  exact absurd h (by decide)

theorem isEmpty_false_of_ne {w : List Char} (h : w ≠ []) : w.isEmpty = false := by
  cases w with
  | nil => exact absurd rfl h
  | cons a b => rfl

theorem matchLit_self : ∀ (lit tail : List Char), matchLit lit (lit ++ tail) = some tail := by
  intro lit
  induction lit with
  | nil => intro tail; rfl
  | cons c cs ih => intro tail; simp [matchLit, ih]

theorem dropSpaces_word_run (w tail : List Char) (hw1 : w ≠ [])
    (hw : ∀ c ∈ w, isWordChar c = true) : dropSpaces (w ++ tail) = w ++ tail := by
  cases w with
  | nil => exact absurd rfl hw1
  | cons c wt =>
      have := word_not_space c (hw c (List.mem_cons_self c wt))
      simp [dropSpaces, this]

theorem takeSpaces1_space (l : List Char) : takeSpaces1 (' ' :: l) = some (dropSpaces l) := by
  simp [takeSpaces1, isSpaceChar]

theorem dropSpaces_space (l : List Char) : dropSpaces (' ' :: l) = dropSpaces l := by
  simp [dropSpaces, isSpaceChar]

theorem dropSpaces_not (c : Char) (l : List Char) (h : isSpaceChar c = false) :
    dropSpaces (c :: l) = c :: l := by
  simp [dropSpaces, h]

theorem parseForTag_tag (iv av rest : List Char)
    (hiv1 : iv ≠ []) (hiv : ∀ c ∈ iv, isWordChar c = true)
    (hav1 : av ≠ []) (hav : ∀ c ∈ av, isWordChar c = true) :
    parseForTag (forTagChars iv av ++ rest) = some (String.mk iv, String.mk av, rest) := by
  have h1 : dropSpaces (iv ++ ' ' :: 'i' :: 'n' :: ' ' :: (av ++ ' ' :: '%' :: '}' :: rest))
      = iv ++ ' ' :: 'i' :: 'n' :: ' ' :: (av ++ ' ' :: '%' :: '}' :: rest) :=
    dropSpaces_word_run iv _ hiv1 hiv
  have h2 : takeWord (iv ++ ' ' :: 'i' :: 'n' :: ' ' :: (av ++ ' ' :: '%' :: '}' :: rest))
      = (iv, ' ' :: 'i' :: 'n' :: ' ' :: (av ++ ' ' :: '%' :: '}' :: rest)) :=
    takeWord_run iv ' ' _ hiv (by decide)
  have h3 : dropSpaces (av ++ ' ' :: '%' :: '}' :: rest) = av ++ ' ' :: '%' :: '}' :: rest :=
    dropSpaces_word_run av _ hav1 hav
  have h4 : takeWord (av ++ ' ' :: '%' :: '}' :: rest) = (av, ' ' :: '%' :: '}' :: rest) :=
    takeWord_run av ' ' _ hav (by decide)
  have hshape : forTagChars iv av ++ rest =
      '{' :: '%' :: ' ' :: 'f' :: 'o' :: 'r' :: ' ' ::
        (iv ++ ' ' :: 'i' :: 'n' :: ' ' :: (av ++ ' ' :: '%' :: '}' :: rest)) := by
    simp [forTagChars]
  rw [hshape]
  simp [parseForTag, matchLit, dropSpaces_space, dropSpaces_not, isSpaceChar, takeSpaces1_space,
    h1, h2, h3, h4, isEmpty_false_of_ne hiv1, isEmpty_false_of_ne hav1]

theorem parseEndTag_cons_ne (word : List Char) (c : Char) (cs : List Char) (h : c ≠ '{') :
    parseEndTag word (c :: cs) = none := by
  have : matchLit ['{', '%'] (c :: cs) = none := by
    simp [matchLit, Ne.symm h]
  simp [parseEndTag, this]

theorem parseEndTag_brace_ne (word : List Char) (d : Char) (cs : List Char) (h : d ≠ '%') :
    parseEndTag word ('{' :: d :: cs) = none := by
  have : matchLit ['{', '%'] ('{' :: d :: cs) = none := by
    simp [matchLit, Ne.symm h]
  simp [parseEndTag, this]

theorem findEnd_skip_cons (word : List Char) (c : Char) (cs b r : List Char)
    (hp : parseEndTag word (c :: cs) = none) (hf : findEnd word cs = some (b, r)) :
    findEnd word (c :: cs) = some (c :: b, r) := by
  rw [findEnd, hp, hf]

theorem findEnd_skip_run (word : List Char) : ∀ (run cs b r : List Char),
    (∀ c ∈ run, c ≠ '{') → findEnd word cs = some (b, r) →
    findEnd word (run ++ cs) = some (run ++ b, r) := by
  intro run
  induction run with
  | nil => intro cs b r _ hf; simpa using hf
  | cons c rest ih =>
      intro cs b r h hf
      rw [List.cons_append]
      rw [findEnd_skip_cons word c (rest ++ cs) (rest ++ b) r
        (parseEndTag_cons_ne word c _ (h c (List.mem_cons_self c rest)))
        (ih cs b r (fun x hx => h x (List.mem_cons_of_mem c hx)) hf)]
      simp

theorem findEnd_skip_token (iv fd : List Char) (cs b r : List Char)
    (hiv1 : iv ≠ []) (hiv : ∀ c ∈ iv, isWordChar c = true)
    (hfd : ∀ c ∈ fd, isWordChar c = true)
    (hf : findEnd ['e', 'n', 'd', 'f', 'o', 'r'] cs = some (b, r)) :
    findEnd ['e', 'n', 'd', 'f', 'o', 'r'] (itemTokenChars iv fd ++ cs) =
      some (itemTokenChars iv fd ++ b, r) := by
  have hrun : ∀ c ∈ iv ++ '.' :: (fd ++ ['}', '}']), c ≠ '{' := by
    intro c hc
    rcases List.mem_append.mp hc with h1 | h1
    · exact word_ne_brace c (hiv c h1)
    · rcases List.mem_cons.mp h1 with h2 | h2
      · rw [h2]; decide
      · rcases List.mem_append.mp h2 with h3 | h3
        · exact word_ne_brace c (hfd c h3)
        · rcases List.mem_cons.mp h3 with h4 | h4
          · rw [h4]; decide
          · rcases List.mem_cons.mp h4 with h5 | h5
            · rw [h5]; decide
            · simp at h5
  have hstep1 : findEnd ['e', 'n', 'd', 'f', 'o', 'r']
      ((iv ++ '.' :: (fd ++ ['}', '}'])) ++ cs) =
      some ((iv ++ '.' :: (fd ++ ['}', '}'])) ++ b, r) :=
    findEnd_skip_run _ _ cs b r hrun hf
  obtain ⟨c0, ivt, hiv_eq⟩ : ∃ c0 ivt, iv = c0 :: ivt := by
    cases iv with
    | nil => exact absurd rfl hiv1
    | cons a t => exact ⟨a, t, rfl⟩
  have hc0 : isWordChar c0 = true := hiv c0 (by rw [hiv_eq]; exact List.mem_cons_self c0 ivt)
  have hstep2 : findEnd ['e', 'n', 'd', 'f', 'o', 'r']
      ('{' :: ((iv ++ '.' :: (fd ++ ['}', '}'])) ++ cs)) =
      some ('{' :: ((iv ++ '.' :: (fd ++ ['}', '}'])) ++ b), r) := by
    apply findEnd_skip_cons _ _ _ _ _ _ hstep1
    rw [hiv_eq]
    exact parseEndTag_brace_ne _ c0 _ (word_ne_pct c0 hc0)
  have hstep3 : findEnd ['e', 'n', 'd', 'f', 'o', 'r']
      ('{' :: '{' :: ((iv ++ '.' :: (fd ++ ['}', '}'])) ++ cs)) =
      some ('{' :: '{' :: ((iv ++ '.' :: (fd ++ ['}', '}'])) ++ b), r) := by
    apply findEnd_skip_cons _ _ _ _ _ _ hstep2
    exact parseEndTag_brace_ne _ '{' _ (by decide)
  have hshape : itemTokenChars iv fd ++ cs =
      '{' :: '{' :: ((iv ++ '.' :: (fd ++ ['}', '}'])) ++ cs) := by
    simp [itemTokenChars]
  have hshape2 : itemTokenChars iv fd ++ b =
      '{' :: '{' :: ((iv ++ '.' :: (fd ++ ['}', '}'])) ++ b) := by
    simp [itemTokenChars]
  rw [hshape, hshape2, hstep3]

theorem parseEndTag_endfor (post : List Char) :
    parseEndTag ['e', 'n', 'd', 'f', 'o', 'r'] (endforChars ++ post) = some post := by
  simp [endforChars, parseEndTag, matchLit, dropSpaces_space, dropSpaces_not, isSpaceChar]

theorem findEnd_endfor_start (post : List Char) :
    findEnd ['e', 'n', 'd', 'f', 'o', 'r'] (endforChars ++ post) = some ([], post) := by
  have hshape : endforChars ++ post =
      '{' :: ('%' :: ' ' :: 'e' :: 'n' :: 'd' :: 'f' :: 'o' :: 'r' :: ' ' :: '%' :: '}' :: post) := by
    simp [endforChars]
  rw [hshape, findEnd]
  have := parseEndTag_endfor post
  rw [hshape] at this
  rw [this]

theorem substItem_nil (iv : List Char) (item : Val) : substItem iv item [] = [] := by
  simp [substItem]

theorem substItem_cons_ne (iv : List Char) (item : Val) (c : Char) (cs : List Char)
    (h : c ≠ '{') : substItem iv item (c :: cs) = c :: substItem iv item cs := by
  rw [substItem.eq_def]
  split
  · simp_all
  · simp_all
  · simp_all

theorem substItem_no_brace_run (iv : List Char) (item : Val) : ∀ (pre l : List Char),
    (∀ c ∈ pre, c ≠ '{') → substItem iv item (pre ++ l) = pre ++ substItem iv item l := by
  intro pre
  induction pre with
  | nil => intro l _; simp
  | cons c cs ih =>
      intro l h
      rw [List.cons_append, substItem_cons_ne iv item c _ (h c (List.mem_cons_self c cs)),
        ih l (fun x hx => h x (List.mem_cons_of_mem c hx))]
      rfl

theorem substItem_token (iv fd : List Char) (item : Val) (rest : List Char)
    (hfd1 : fd ≠ []) (hfd : ∀ c ∈ fd, isWordChar c = true) :
    substItem iv item ('{' :: '{' :: (iv ++ '.' :: (fd ++ '}' :: '}' :: rest))) =
      (jsOrEmpty (itemGet item (String.mk fd))).data ++ substItem iv item rest := by
  have hml : matchLit iv (iv ++ '.' :: (fd ++ '}' :: '}' :: rest)) =
      some ('.' :: (fd ++ '}' :: '}' :: rest)) := matchLit_self iv _
  have htw : takeWord (fd ++ '}' :: '}' :: rest) = (fd, '}' :: '}' :: rest) :=
    takeWord_run fd '}' _ hfd (by decide)
  rw [substItem.eq_def]
  split
  · rename_i heq
    exact absurd heq (by simp)
  · rename_i rest0 heq
    have h0 : rest0 = iv ++ '.' :: (fd ++ '}' :: '}' :: rest) := by
      injection heq with e1 e2
      injection e2 with e3 e4
      exact e4.symm
    subst h0
    split
    · rename_i rest2 heq2
      rw [hml] at heq2
      have h2 : rest2 = fd ++ '}' :: '}' :: rest := by
        have h3 := Option.some.inj heq2
        injection h3 with e5 e6
        exact e6.symm
      subst h2
      rw [if_neg (by simp [htw, isEmpty_false_of_ne hfd1])]
      split
      · rename_i rest3 hm2
        rw [htw] at hm2
        simp at hm2
        subst hm2
        simp [htw]
      · rename_i hx
        exact (hx rest (congrArg Prod.snd htw)).elim
    · rename_i hx
      exact (hx (fd ++ '}' :: '}' :: rest) hml).elim
  · rename_i hx heq
    injection heq with e1 e2
    exact (hx (iv ++ '.' :: (fd ++ '}' :: '}' :: rest)) e1.symm e2.symm).elim

theorem parseForTag_cons_ne (c : Char) (cs : List Char) (h : c ≠ '{') :
    parseForTag (c :: cs) = none := by
  have ism : matchLit ['{', '%'] (c :: cs) = none := by
    simp [matchLit, Ne.symm h]
  simp [parseForTag, ism]

theorem loopPass_cons_ne (ctx : List (String × Val)) (c : Char) (cs : List Char)
    (h : c ≠ '{') : loopPass ctx (c :: cs) = c :: loopPass ctx cs := by
  rw [loopPass.eq_def]
  split
  · simp_all
  · rename_i c0 cs0 heq
    injection heq with e1 e2
    subst e1
    subst e2
    split
    · rename_i p hp
      rw [parseForTag_cons_ne c cs h] at hp
      exact absurd hp (by simp)
    · rfl

theorem loopPass_no_brace_run (ctx : List (String × Val)) : ∀ (pre l : List Char),
    (∀ c ∈ pre, c ≠ '{') → loopPass ctx (pre ++ l) = pre ++ loopPass ctx l := by
  intro pre
  induction pre with
  | nil => intro l _; simp
  | cons c cs ih =>
      intro l h
      rw [List.cons_append, loopPass_cons_ne ctx c _ (h c (List.mem_cons_self c cs)),
        ih l (fun x hx => h x (List.mem_cons_of_mem c hx))]
      rfl

theorem substItem_id (iv : List Char) (item : Val) (l : List Char)
    (h : ∀ c ∈ l, c ≠ '{') : substItem iv item l = l := by
  have h2 := substItem_no_brace_run iv item l [] h
  simpa [substItem_nil] using h2

theorem loopPass_at_tag (ctx : List (String × Val)) (iv av : List Char)
    (afterTag body rest : List Char)
    (hparse : parseForTag (forTagChars iv av ++ afterTag) =
      some (String.mk iv, String.mk av, afterTag))
    (hfind : findEnd ['e', 'n', 'd', 'f', 'o', 'r'] afterTag = some (body, rest)) :
    loopPass ctx (forTagChars iv av ++ afterTag) =
      ((jsArr (lookupA ctx (String.mk av))).map
        (fun item => substItem iv item body)).flatten ++ loopPass ctx rest := by
  have hshape : forTagChars iv av ++ afterTag =
      '{' :: ('%' :: ' ' :: 'f' :: 'o' :: 'r' :: ' ' ::
        (iv ++ ' ' :: 'i' :: 'n' :: ' ' :: (av ++ ' ' :: '%' :: '}' :: afterTag))) := by
    simp [forTagChars]
  rw [hshape] at hparse ⊢
  rw [loopPass.eq_def]
  split
  · rename_i heq
    exact absurd heq (by simp)
  · rename_i c0 cs0 heq
    injection heq with e1 e2
    subst e1
    subst e2
    split
    · rename_i itemVar arrayVar afterTag2 hp
      rw [hparse] at hp
      have h3 := Option.some.inj hp
      injection h3 with e3 e4
      injection e4 with e5 e6
      subst e3
      subst e5
      subst e6
      split
      · rename_i body2 rest2 hf
        rw [hfind] at hf
        have h4 := Option.some.inj hf
        injection h4 with e7 e8
        subst e7
        subst e8
        rfl
      · rename_i hf
        rw [hfind] at hf
        exact absurd hf (by simp)
    · rename_i hp
      rw [hparse] at hp
      exact absurd hp (by simp)

theorem loopPass_for_block (ctx : List (String × Val)) (iv av fd : List Char)
    (pre bodyPre bodySuf post : List Char)
    (hiv1 : iv ≠ []) (hiv : ∀ c ∈ iv, isWordChar c = true)
    (hav1 : av ≠ []) (hav : ∀ c ∈ av, isWordChar c = true)
    (hfd1 : fd ≠ []) (hfd : ∀ c ∈ fd, isWordChar c = true)
    (hpre : ∀ c ∈ pre, c ≠ '{') (hbp : ∀ c ∈ bodyPre, c ≠ '{')
    (hbs : ∀ c ∈ bodySuf, c ≠ '{') :
    loopPass ctx (pre ++ forTagChars iv av ++ bodyPre ++ itemTokenChars iv fd ++ bodySuf
        ++ endforChars ++ post) =
      pre ++ ((jsArr (lookupA ctx (String.mk av))).map
        (fun item => bodyPre ++ (jsOrEmpty (itemGet item (String.mk fd))).data
          ++ bodySuf)).flatten ++ loopPass ctx post := by
  -- the body of the block, as the findEnd scanner isolates it
  have hbase : findEnd ['e', 'n', 'd', 'f', 'o', 'r'] (endforChars ++ post) = some ([], post) :=
    findEnd_endfor_start post
  have hs1 : findEnd ['e', 'n', 'd', 'f', 'o', 'r'] (bodySuf ++ (endforChars ++ post)) =
      some (bodySuf, post) := by
    have := findEnd_skip_run _ bodySuf (endforChars ++ post) [] post hbs hbase
    simpa using this
  have hs2 : findEnd ['e', 'n', 'd', 'f', 'o', 'r']
      (itemTokenChars iv fd ++ (bodySuf ++ (endforChars ++ post))) =
      some (itemTokenChars iv fd ++ bodySuf, post) :=
    findEnd_skip_token iv fd _ _ _ hiv1 hiv hfd hs1
  have hs3 : findEnd ['e', 'n', 'd', 'f', 'o', 'r']
      (bodyPre ++ (itemTokenChars iv fd ++ (bodySuf ++ (endforChars ++ post)))) =
      some (bodyPre ++ (itemTokenChars iv fd ++ bodySuf), post) :=
    findEnd_skip_run _ bodyPre _ _ post hbp hs2
  have hparse := parseForTag_tag iv av
    (bodyPre ++ (itemTokenChars iv fd ++ (bodySuf ++ (endforChars ++ post)))) hiv1 hiv hav1 hav
  have htag := loopPass_at_tag ctx iv av _ _ _ hparse hs3
  have hitem : ∀ item : Val,
      substItem iv item (bodyPre ++ (itemTokenChars iv fd ++ bodySuf)) =
        bodyPre ++ (jsOrEmpty (itemGet item (String.mk fd))).data ++ bodySuf := by
    intro item
    rw [substItem_no_brace_run iv item bodyPre _ hbp]
    have hshape : itemTokenChars iv fd ++ bodySuf =
        '{' :: '{' :: (iv ++ '.' :: (fd ++ '}' :: '}' :: bodySuf)) := by
      simp [itemTokenChars]
    rw [hshape, substItem_token iv fd item bodySuf hfd1 hfd,
      substItem_id iv item bodySuf hbs]
    simp
  rw [show pre ++ forTagChars iv av ++ bodyPre ++ itemTokenChars iv fd ++ bodySuf
      ++ endforChars ++ post =
      pre ++ (forTagChars iv av ++ (bodyPre ++ (itemTokenChars iv fd ++ (bodySuf
      ++ (endforChars ++ post))))) from by simp]
  rw [loopPass_no_brace_run ctx pre _ hpre, htag]
  simp only [hitem, List.append_assoc]

/-- Claim C7 (amended): for every context, item and array variable
names, field name, surrounding brace-free text and element list, the
loop block is evaluated once per element of the context array in order
(and zero times when the array key is absent), each iteration replacing
the item field token in the body by the string form of the element field
when that field is present and truthy and by the empty string when it is
absent or falsy, with the per-iteration results concatenated in element
order; the specification example renders exactly as stated. -/
theorem c7_loop_blocks (ctx : List (String × Val)) (iv av fd : List Char) (items : List Val)
    (pre bodyPre bodySuf post : List Char)
    (hiv1 : iv ≠ []) (hiv : ∀ c ∈ iv, isWordChar c = true)
    (hav1 : av ≠ []) (hav : ∀ c ∈ av, isWordChar c = true)
    (hfd1 : fd ≠ []) (hfd : ∀ c ∈ fd, isWordChar c = true)
    (hpre : ∀ c ∈ pre, c ≠ '{') (hbp : ∀ c ∈ bodyPre, c ≠ '{')
    (hbs : ∀ c ∈ bodySuf, c ≠ '{') :
    (lookupA ctx (String.mk av) = some (.vList items) →
      loopPass ctx (pre ++ forTagChars iv av ++ bodyPre ++ itemTokenChars iv fd ++ bodySuf
          ++ endforChars ++ post) =
        pre ++ (items.map (fun item =>
          bodyPre ++ (jsOrEmpty (itemGet item (String.mk fd))).data ++ bodySuf)).flatten
          ++ loopPass ctx post) ∧
    (lookupA ctx (String.mk av) = none →
      loopPass ctx (pre ++ forTagChars iv av ++ bodyPre ++ itemTokenChars iv fd ++ bodySuf
          ++ endforChars ++ post) =
        pre ++ loopPass ctx post) ∧
    SimpleTemplateEngine.render loopTemplate
        [("items", .vList [.vObj [("n", .vNum 1)], .vObj [("n", .vNum 2)]])] = "1,2," ∧
    SimpleTemplateEngine.render loopTemplate [] = "" := by
  refine ⟨?_, ?_, ?_, ?_⟩
  · intro hlook
    rw [loopPass_for_block ctx iv av fd pre bodyPre bodySuf post hiv1 hiv hav1 hav hfd1 hfd
      hpre hbp hbs, hlook]
    rfl
  · intro hlook
    rw [loopPass_for_block ctx iv av fd pre bodyPre bodySuf post hiv1 hiv hav1 hav hfd1 hfd
      hpre hbp hbs, hlook]
    simp [jsArr]
  · simp [loopTemplate, SimpleTemplateEngine.render, substVars, condPass, loopPass, takeWord,
      isWordChar, parseIfTag, parseForTag, matchLit, dropSpaces, takeSpaces1, jsOrEmpty,
      lookupA, truthy, jsToString, jsToStringBase, findEnd, parseEndTag, isSpaceChar, jsArr,
      itemGet, substItem, truthyLookup]
    rfl
  · simp [loopTemplate, SimpleTemplateEngine.render, substVars, condPass, loopPass, takeWord,
      isWordChar, parseIfTag, parseForTag, matchLit, dropSpaces, takeSpaces1, jsOrEmpty,
      lookupA, truthy, jsToString, jsToStringBase, findEnd, parseEndTag, isSpaceChar, jsArr,
      itemGet, substItem, truthyLookup]

/-- Claim C7 witness: the amended block equation at a concrete context,
variables, field, body and element list, and the zero-iteration clause
at a context without the array key. -/
theorem c7_witness :
    loopPass [("items", Val.vList [Val.vObj [("n", Val.vStr "a")]])]
        ([] ++ forTagChars ['x'] ['i', 't', 'e', 'm', 's'] ++ [] ++ itemTokenChars ['x'] ['n']
          ++ [','] ++ endforChars ++ []) =
      [] ++ ([Val.vObj [("n", Val.vStr "a")]].map
        (fun item => [] ++ (jsOrEmpty (itemGet item (String.mk ['n']))).data ++ [','])).flatten
        ++ loopPass [("items", Val.vList [Val.vObj [("n", Val.vStr "a")]])] [] ∧
    loopPass [] ([] ++ forTagChars ['x'] ['i', 't', 'e', 'm', 's'] ++ [] ++
        itemTokenChars ['x'] ['n'] ++ [','] ++ endforChars ++ []) =
      [] ++ loopPass [] [] :=
  ⟨(c7_loop_blocks [("items", Val.vList [Val.vObj [("n", Val.vStr "a")]])] ['x'] ['i', 't', 'e', 'm', 's']
      ['n'] [Val.vObj [("n", Val.vStr "a")]] [] [] [','] []
      (by decide) (by decide) (by decide) (by decide) (by decide) (by decide)
      (by decide) (by decide) (by decide)).1 (by rfl),
   (c7_loop_blocks [] ['x'] ['i', 't', 'e', 'm', 's'] ['n'] [] [] [] [','] []
      (by decide) (by decide) (by decide) (by decide) (by decide) (by decide)
      (by decide) (by decide) (by decide)).2.1 (by rfl)⟩

/-- Claim C7 counterexample: an element whose field n is 0 is rendered
as the empty string, not as the string form 0 of the field, so the
iteration yields a comma alone (the source applies value-or-empty to the
item field). -/
theorem c7_counterexample :
    SimpleTemplateEngine.render loopTemplate
        [("items", .vList [.vObj [("n", .vNum 0)]])] = "," ∧
    ("," : String) ≠ "0," := by
  constructor
  · simp [loopTemplate, SimpleTemplateEngine.render, substVars, condPass, loopPass, takeWord,
      isWordChar, parseIfTag, parseForTag, matchLit, dropSpaces, takeSpaces1, jsOrEmpty,
      lookupA, truthy, jsToString, jsToStringBase, findEnd, parseEndTag, isSpaceChar, jsArr,
      itemGet, substItem, truthyLookup]
  · decide

end SynapseDocs
